import Mathlib

/-
Shallow embedding of the LVM2 configuration-language engine
(src/lib/config/config.c) and of the MD component-device probe
(src/lib/device/dev-md.c).

The config engine is modelled over `List Char` buffers.  The tokenizer and
the recursive-descent parser mirror the C functions `_eat_space`,
`_get_token`, `_file`, `_section`, `_value`, `_type`, `_match_aux` and
`_dup_tok`; recursion that the C code performs with cursor advance and
while-loops is realised with an explicit fuel parameter so that every
definition is executable and kernel-reducible (the fuel supplied by the
entry points strictly exceeds the number of parsing steps the C code can
take on the given buffer, since each step consumes at least one byte).
Parse errors carry the line number that config.c would pass to log_error.
-/

namespace LvmCfg

/-- Token kinds of the tokenizer, mirroring the anonymous enum in
config.c lines 20-32 (TOK_INT .. TOK_EOF). -/
inductive Tok where
  | tInt
  | tFloat
  | tString
  | tEq
  | tSectionB
  | tSectionE
  | tArrayB
  | tArrayE
  | tIdentifier
  | tComma
  | tEof
deriving DecidableEq

/-- Character constants used by the tokenizer, written via code points to
keep the source free of awkward literals: newline, double quote,
backslash, braces, brackets, horizontal tab, vertical tab, form feed,
carriage return. -/
def nlC : Char := Char.ofNat 10

/-- Double-quote character. -/
def quoteC : Char := Char.ofNat 34

/-- Backslash character. -/
def bslashC : Char := Char.ofNat 92

/-- Opening brace character. -/
def lbraceC : Char := Char.ofNat 123

/-- Closing brace character. -/
def rbraceC : Char := Char.ofNat 125

/-- Opening square bracket character. -/
def lbrackC : Char := Char.ofNat 91

/-- Closing square bracket character. -/
def rbrackC : Char := Char.ofNat 93

/-- Hash (comment) character. -/
def hashC : Char := '#'

/-- Equals character. -/
def eqC : Char := '='

/-- Comma character. -/
def commaC : Char := ','

/-- Dot character. -/
def dotC : Char := '.'

/-- C `isspace` for the ASCII buffers the parser reads: space, tab,
newline, vertical tab, form feed, carriage return. -/
def isSpaceC (c : Char) : Bool :=
  c == ' ' || c == Char.ofNat 9 || c == nlC ||
  c == Char.ofNat 11 || c == Char.ofNat 12 || c == Char.ofNat 13

/-- `_eat_space` (config.c lines 449-471) with explicit fuel.  The
`#` branch skips to (but not past) the next newline and increments the
line counter once; the whitespace branch consumes a maximal run of
whitespace, incrementing the line counter once per newline consumed.
Note that the comment branch increments the counter even though the
newline it stopped at is counted again by the whitespace branch: this is
exactly what the C code does.  Returns the remaining buffer and the line
counter.  Fuel at least `length + 1` is always sufficient because every
recursive step consumes at least one character. -/
def eatSpaceF : Nat → List Char → Nat → List Char × Nat
  | 0, s, line => (s, line)
  | _ + 1, [], line => ([], line)
  | fuel + 1, c :: cs, line =>
    if c == hashC then
      eatSpaceF fuel ((c :: cs).dropWhile (fun x => x != nlC)) (line + 1)
    else if isSpaceC c then
      eatSpaceF fuel ((c :: cs).dropWhile isSpaceC)
        (line + ((c :: cs).takeWhile isSpaceC).count nlC)
    else (c :: cs, line)

/-- Scan of a string token body after the opening quote, mirroring the
`case '"'` loop of `_get_token` (config.c lines 411-422): a backslash
that is not the last character of the buffer skips the following
character; scanning stops after consuming an unescaped closing quote, or
at end of buffer (unterminated string).  Returns the consumed characters
(including the closing quote when present) and the remaining buffer. -/
def strScan : List Char → List Char × List Char
  | [] => ([], [])
  | c :: cs =>
    if c == quoteC then ([c], cs)
    else if c == bslashC then
      match cs with
      | [] => ([c], [])
      | d :: ds =>
        let (b, r) := strScan ds
        (c :: d :: b, r)
    else
      let (b, r) := strScan cs
      (c :: b, r)

/-- Scan of a numeric token after its first character, mirroring the
digit/dot loop of `_get_token` (config.c lines 424-438): digits are
consumed; the first dot upgrades the token to Float; a second dot stops
the scan without being consumed.  Returns consumed characters, remaining
buffer, and the final is-float flag. -/
def numScan : Bool → List Char → List Char × List Char × Bool
  | isF, [] => ([], [], isF)
  | isF, c :: cs =>
    if c == dotC then
      if isF then ([], c :: cs, isF)
      else
        let (a, r, f) := numScan true cs
        (c :: a, r, f)
    else if c.isDigit then
      let (a, r, f) := numScan isF cs
      (c :: a, r, f)
    else ([], c :: cs, isF)

/-- Identifier body characters: anything except whitespace, `#` and `=`
(config.c lines 442-444). -/
def idChar (c : Char) : Bool :=
  !(isSpaceC c) && c != hashC && c != eqC

/-- Parser state after `_get_token`: current token kind, the token's text
(the range `[tb, te)`), the unread remainder of the buffer, and the line
counter (struct parser, config.c lines 34-44). -/
structure PState where
  t : Tok
  text : List Char
  rest : List Char
  line : Nat

/-- `_get_token` (config.c lines 369-447): skip whitespace and comments,
then classify the next token by its first character. -/
def getToken (buf : List Char) (line : Nat) : PState :=
  match eatSpaceF (buf.length + 1) buf line with
  | (s, ln) =>
    match s with
    | [] => ⟨Tok.tEof, [], [], ln⟩
    | c :: cs =>
      if c == lbraceC then ⟨Tok.tSectionB, [c], cs, ln⟩
      else if c == rbraceC then ⟨Tok.tSectionE, [c], cs, ln⟩
      else if c == lbrackC then ⟨Tok.tArrayB, [c], cs, ln⟩
      else if c == rbrackC then ⟨Tok.tArrayE, [c], cs, ln⟩
      else if c == commaC then ⟨Tok.tComma, [c], cs, ln⟩
      else if c == eqC then ⟨Tok.tEq, [c], cs, ln⟩
      else if c == quoteC then
        match strScan cs with
        | (body, r) => ⟨Tok.tString, c :: body, r, ln⟩
      else if c == dotC then
        match numScan true cs with
        | (ds, r, _) => ⟨Tok.tFloat, c :: ds, r, ln⟩
      else if c.isDigit then
        match numScan false cs with
        | (ds, r, isF) => ⟨if isF then Tok.tFloat else Tok.tInt, c :: ds, r, ln⟩
      else
        ⟨Tok.tIdentifier, (c :: cs).takeWhile idChar, (c :: cs).dropWhile idChar, ln⟩

/-- Value of a decimal digit string (most significant digit first). -/
def digitsVal (ds : List Char) : Nat :=
  ds.foldl (fun a c => a * 10 + (c.toNat - 48)) 0

/-- Modelled from the spec: the `strtol`-equivalent decimal conversion for
Int tokens (config.c line 328 stores the result in a field declared in
config.h, which is not under src/; the spec specifies a 64+-bit signed
Integer and leaves overflowing text implementation-defined, so the value
is modelled as an unbounded `Int` of the digit string, which agrees with
`strtol` on every non-overflowing token). -/
def strtolM (ds : List Char) : Int :=
  Int.ofNat (digitsVal ds)

/-- Modelled from the spec: the `strtod`-equivalent conversion for Float
tokens (config.c line 334; the stored type is declared in config.h, not
under src/).  A Float token consists of digits with at most one dot, so
its decimal value is represented exactly as a rational. -/
def strtodM (ds : List Char) : Rat :=
  let ip := ds.takeWhile Char.isDigit
  let fp := (ds.dropWhile Char.isDigit).drop 1
  (digitsVal ip : Rat) + (digitsVal fp : Rat) / ((10 : Rat) ^ fp.length)

/-- Tagged value (struct config_value; the struct itself is declared in
config.h, which is not under src/ — the payload types follow the spec's
data model: Integer, Float, String).  The `next` chain of the C struct is
modelled by keeping values in a `List CValue`. -/
inductive CValue where
  | vInt (i : Int)
  | vFloat (r : Rat)
  | vStr (s : List Char)
deriving DecidableEq

/-- Tree node (struct config_node): a key, the value chain `v` (empty
list = NULL pointer) and the child chain `child` (empty list = NULL);
the sibling chain of the C struct is modelled by keeping nodes in
lists. -/
inductive CNode where
  | mk (key : List Char) (v : List CValue) (child : List CNode)

/-- Key of a node. -/
def CNode.key : CNode → List Char
  | .mk k _ _ => k

/-- Value chain of a node (empty = NULL). -/
def CNode.v : CNode → List CValue
  | .mk _ v _ => v

/-- Child chain of a node (empty = NULL). -/
def CNode.child : CNode → List CNode
  | .mk _ _ c => c

/-- Advance the parser: C's `_get_token` invoked on the current state. -/
def advance (p : PState) : PState :=
  getToken p.rest p.line

/-- `_match_aux` wrapped by the `match(t)` macro (config.c lines 57-70,
357-364): if the current token has kind `t`, read the next token,
otherwise fail at the current line (the macro logs
"Parse error at line %d"). -/
def matchTok (t : Tok) (p : PState) : Except Nat PState :=
  if p.t = t then Except.ok (advance p) else Except.error p.line

/-- Strip the first and last character of a string token's text: in
`_type` the C code does `p->tb++, p->te--` before `_dup_tok` and restores
`te` afterwards (config.c line 341-346), so the stored string is the
token text minus its first and last character — no other rewriting (in
particular backslashes are copied verbatim by `_dup_tok`). -/
def stripQuotes (l : List Char) : List Char :=
  (l.drop 1).dropLast

/-- `_type` (config.c lines 320-355): convert the current Int, Float or
String token into a value and advance past it; any other token is
"Parse error at line %d: expected a value". -/
def typeP (p : PState) : Except Nat (CValue × PState) :=
  match p.t with
  | Tok.tInt => Except.ok (CValue.vInt (strtolM p.text), advance p)
  | Tok.tFloat => Except.ok (CValue.vFloat (strtodM p.text), advance p)
  | Tok.tString => Except.ok (CValue.vStr (stripQuotes p.text), advance p)
  | _ => Except.error p.line

/-- The element loop of `_value` (config.c lines 298-312): parse `_type`
elements until the current token is `]`; after each element a single
comma, when present, is consumed (the comma is optional: the code only
matches it if it is there).  Returns the collected values (possibly
none, when the body is empty) and the state at the `]`. -/
def valuesLoop : Nat → PState → List CValue → Except Nat (List CValue × PState)
  | 0, p, _ => Except.error p.line
  | fuel + 1, p, acc =>
    if p.t = Tok.tArrayE then Except.ok (acc, p)
    else
      match typeP p with
      | Except.error l => Except.error l
      | Except.ok (v, p1) =>
        let p2 := if p1.t = Tok.tComma then advance p1 else p1
        valuesLoop fuel p2 (acc ++ [v])

/-- `_value` (config.c lines 292-318): either a bracketed list of types
or a single type.  An empty bracketed list yields an empty value chain —
the C function returns its local `h`, still NULL, which the caller
`_section` then treats as failure. -/
def valueP (fuel : Nat) (p : PState) : Except Nat (List CValue × PState) :=
  if p.t = Tok.tArrayB then
    match valuesLoop fuel (advance p) [] with
    | Except.error l => Except.error l
    | Except.ok (vs, p1) => Except.ok (vs, advance p1)
  else
    match typeP p with
    | Except.error l => Except.error l
    | Except.ok (v, p1) => Except.ok ([v], p1)

mutual

/-- `_section` (config.c lines 250-290): duplicate the current token's
text as the key, require it to be an identifier, then either a braced
list of sub-sections or `=` followed by a value list.  A NULL return of
`_value` (parse error inside, or an empty `[]` body) makes `_section`
fail too. -/
def sectionP : Nat → PState → Except Nat (CNode × PState)
  | 0, p => Except.error p.line
  | fuel + 1, p =>
    let key := p.text
    match matchTok Tok.tIdentifier p with
    | Except.error l => Except.error l
    | Except.ok p1 =>
      if p1.t = Tok.tSectionB then
        match sectionsLoop fuel (advance p1) [] with
        | Except.error l => Except.error l
        | Except.ok (cs, p2) => Except.ok (CNode.mk key [] cs, advance p2)
      else
        match matchTok Tok.tEq p1 with
        | Except.error l => Except.error l
        | Except.ok p2 =>
          match valueP fuel p2 with
          | Except.error l => Except.error l
          | Except.ok (vs, p3) =>
            if vs.isEmpty then Except.error p3.line
            else Except.ok (CNode.mk key vs [], p3)

/-- The `while (p->t != TOK_SECTION_E)` loop inside `_section`
(config.c lines 268-279), collecting sub-sections in source order. -/
def sectionsLoop : Nat → PState → List CNode → Except Nat (List CNode × PState)
  | 0, p, _ => Except.error p.line
  | fuel + 1, p, acc =>
    if p.t = Tok.tSectionE then Except.ok (acc, p)
    else
      match sectionP fuel p with
      | Except.error l => Except.error l
      | Except.ok (n, p1) => sectionsLoop fuel p1 (acc ++ [n])

end

/-- `_file` (config.c lines 232-248): parse sections until EOF, chaining
them as siblings in source order.  An empty file yields the empty list —
which the C code returns as a NULL root pointer. -/
def fileLoop : Nat → PState → List CNode → Except Nat (List CNode × PState)
  | 0, p, _ => Except.error p.line
  | fuel + 1, p, acc =>
    if p.t = Tok.tEof then Except.ok (acc, p)
    else
      match sectionP fuel p with
      | Except.error l => Except.error l
      | Except.ok (n, p1) => fileLoop fuel p1 (acc ++ [n])

/-- The parsing phase of `read_config` (config.c lines 134-140): read the
first token of the buffer starting at line 1 and run `_file`.  The fuel
`2 * length + 8` strictly exceeds the number of parser steps possible on
the buffer (each loop iteration and each nesting level consumes input).
On failure the mismatch line is returned. -/
def parseDoc (s : List Char) : Except Nat (List CNode) :=
  match fileLoop (2 * s.length + 8) (getToken s 1) [] with
  | Except.error l => Except.error l
  | Except.ok (ns, _) => Except.ok ns

/-- `read_config` (config.c lines 101-150), restricted to the parsing of
an already-obtained buffer: the Bool is the C return value `r`
(`cf->root = _file(p)` followed by `if (!cf->root) r = 0`; since a NULL
root results both from a parse error and from an empty file, `r` is 0 in
both cases), and the list is the node chain reachable from `cf->root`
afterwards (empty on error because a failed parse leaves root NULL). -/
def read_config (s : List Char) : Bool × List CNode :=
  match parseDoc s with
  | Except.error _ => (false, [])
  | Except.ok ns => (!ns.isEmpty, ns)

/-- Digits of `n` zero-padded on the left to six characters (the
fractional part of `%f`). -/
def natPad6 (n : Nat) : List Char :=
  let s := (toString n).data
  List.replicate (6 - s.length) '0' ++ s

/-- Modelled from the spec: `fprintf(fp, "%f", v->v.r)` (config.c line
160) — fixed six-decimal-digit formatting of the (spec-modelled rational)
float value; the parser only produces nonnegative floats, which `%f`
prints as integer part, dot, and six fractional digits, rounding to the
nearest multiple of 10^-6. -/
def fmtFloat (q : Rat) : List Char :=
  let n := (q * 1000000 + 1 / 2).floor.toNat
  (toString (n / 1000000)).data ++ dotC :: natPad6 (n % 1000000)

/-- `_write_value` (config.c lines 152-167): strings are emitted between
plain double quotes with no escaping, floats via `%f`, integers via
`%d`. -/
def writeVal : CValue → List Char
  | CValue.vStr s => quoteC :: s ++ [quoteC]
  | CValue.vFloat q => fmtFloat q
  | CValue.vInt i => (toString i).data

/-- Comma-space separated rendering of array elements (the inner loop of
`_write_config`, config.c lines 194-200). -/
def writeValsSep : List CValue → List Char
  | [] => []
  | [v] => writeVal v
  | v :: vs => writeVal v ++ ',' :: ' ' :: writeValsSep vs

/-- Value chain rendering of `_write_config` (config.c lines 189-204): a
single value prints bare, two or more print bracketed and
comma-separated. -/
def writeVals : List CValue → List Char
  | [] => []
  | [v] => writeVal v
  | v :: vs => lbrackC :: writeValsSep (v :: vs) ++ [rbrackC]

/-- Indentation of `_write_config` (config.c lines 171-180): one space
per level, capped at MAX_INDENT = 32. -/
def indentS (level : Nat) : List Char :=
  List.replicate (min level 32) ' '

mutual

/-- One node of `_write_config` (config.c lines 182-206): indent and key;
a node with NULL `v` prints as a section `key {\n children indent}` and
a node with values prints as `key=` followed by its value chain; each
node ends with a newline. -/
def writeNode : Nat → CNode → List Char
  | level, CNode.mk key v child =>
    indentS level ++ key ++
    (if v.isEmpty then
      ' ' :: lbraceC :: nlC :: writeNodes (level + 1) child ++ indentS level ++ [rbraceC]
     else
      eqC :: writeVals v) ++ [nlC]

/-- The sibling loop of `_write_config` (`while (n) ... n = n->sib`). -/
def writeNodes : Nat → List CNode → List Char
  | _, [] => []
  | level, n :: ns => writeNode level n ++ writeNodes level ns

end

/-- `write_config` (config.c lines 212-227) restricted to the text it
emits: `_write_config(cf->root, fp, 0)`. -/
def write_config (ns : List CNode) : List Char :=
  writeNodes 0 ns

/-- `_tok_match` (config.c lines 577-585): the key equals the path
segment `[b, e)` character by character, with no remainder on either
side. -/
def tokMatch : List Char → List Char → Bool
  | [], [] => true
  | [], _ :: _ => false
  | _ :: _, [] => false
  | c :: s, d :: t => c == d && tokMatch s t

/-- `find_config_node` (config.c lines 506-537) with explicit fuel: trim
leading separators, delimit the segment up to the next separator, hunt
the sibling list left to right for a `_tok_match`, and descend into the
found node's children exactly when path characters remain (`*e != 0`);
otherwise return the found node (or nothing when the hunt failed).
Each recursive step consumes at least the nonempty segment from the
path, so fuel `path.length + 1` always suffices. -/
def findGo (sep : Char) : Nat → List CNode → List Char → Option CNode
  | 0, _, _ => none
  | fuel + 1, ns, path =>
    let p1 := path.dropWhile (fun c => c == sep)
    let seg := p1.takeWhile (fun c => c != sep)
    let rest := p1.dropWhile (fun c => c != sep)
    match ns.find? (fun n => tokMatch n.key seg) with
    | none => none
    | some n => if rest.isEmpty then some n else findGo sep fuel n.child rest

/-- Entry point of `find_config_node`. -/
def find_config_node (ns : List CNode) (path : List Char) (sep : Char) : Option CNode :=
  findGo sep (path.length + 1) ns path

/-- `find_config_str` (config.c lines 539-552).  The outer `Option` is
the execution: when the resolved node has a NULL `v` chain the C code
dereferences the null pointer in `n->v->type` — modelled as `none`.
`some r` is a completed call returning `r` (itself an optional string,
since both the stored value and the caller's default may be NULL). -/
def find_config_str (ns : List CNode) (path : List Char) (sep : Char)
    (fail : Option (List Char)) : Option (Option (List Char)) :=
  match find_config_node ns path sep with
  | none => some fail
  | some n =>
    match n.v with
    | [] => none
    | v :: _ =>
      match v with
      | CValue.vStr s => some (some s)
      | _ => some fail

/-- `find_config_int` (config.c lines 554-563), with the same null
dereference on nodes whose `v` chain is NULL. -/
def find_config_int (ns : List CNode) (path : List Char) (sep : Char)
    (fail : Int) : Option Int :=
  match find_config_node ns path sep with
  | none => some fail
  | some n =>
    match n.v with
    | [] => none
    | v :: _ =>
      match v with
      | CValue.vInt i => some i
      | _ => some fail

/-- `find_config_float` (config.c lines 565-575), with the same null
dereference on nodes whose `v` chain is NULL. -/
def find_config_float (ns : List CNode) (path : List Char) (sep : Char)
    (fail : Rat) : Option Rat :=
  match find_config_node ns path sep with
  | none => some fail
  | some n =>
    match n.v with
    | [] => none
    | v :: _ =>
      match v with
      | CValue.vFloat r => some r
      | _ => some fail

/-! ### Spec-side definitions

Definitions in this section follow the wording of the specification (for
refinement comparisons against the code-derived definitions above) or
package claim-level predicates. -/

/-- Segment list of a path, following the spec's description of the path
accessor: repeatedly trim leading separators and cut the next segment at
the following separator; the last segment is whatever remains (possibly
empty, e.g. for a trailing separator).  Shares its fuel discipline with
`findGo` so that both recursions run in lockstep. -/
def segsGo (sep : Char) : Nat → List Char → List (List Char)
  | 0, _ => []
  | fuel + 1, path =>
    let p1 := path.dropWhile (fun c => c == sep)
    let seg := p1.takeWhile (fun c => c != sep)
    let rest := p1.dropWhile (fun c => c != sep)
    if rest.isEmpty then [seg] else seg :: segsGo sep fuel rest

/-- Entry point for the spec-side segment split. -/
def pathSegs (sep : Char) (path : List Char) : List (List Char) :=
  segsGo sep (path.length + 1) path

/-- Spec-side node search over a pre-split segment list (spec section
4.4): at each segment search the sibling list left-to-right for an exact
key match; descend into the children exactly when more segments remain;
return the matched node at the last segment; return nothing when a
segment fails to match. -/
def find_node_segs (ns : List CNode) : List (List Char) → Option CNode
  | [] => none
  | seg :: rest =>
    match ns.find? (fun n => tokMatch n.key seg) with
    | none => none
    | some n => if rest.isEmpty then some n else find_node_segs n.child rest

mutual

/-- A buffer that consists only of whitespace and `#`-to-end-of-line
comments (the hypothesis of the empty-input claim), defined directly on
the characters: a `#` opens a comment that runs through the next
newline, whitespace characters are skipped, anything else disqualifies
the buffer. -/
def blankOnly : List Char → Bool
  | [] => true
  | c :: cs =>
    if c == hashC then blankComment cs
    else if isSpaceC c then blankOnly cs
    else false

/-- Inside a `#` comment: everything up to and including the next
newline belongs to the comment. -/
def blankComment : List Char → Bool
  | [] => true
  | c :: cs => if c == nlC then blankOnly cs else blankComment cs

end

/-- String-literal bodies whose lexical scan is regular: no unescaped
double quote and no trailing unpaired backslash.  Every terminated string
literal the tokenizer accepts has such a body between its quotes. -/
def goodBody : List Char → Bool
  | [] => true
  | c :: rest =>
    if c == quoteC then false
    else if c == bslashC then
      match rest with
      | [] => false
      | _ :: t => goodBody t
    else goodBody rest

/-- The claimed section-XOR-binding shape of a single node: a non-empty
value chain and no children, or a non-empty child chain and no values
(claim C4's per-node property, before amendment). -/
def claimXorShape (n : CNode) : Bool :=
  (!n.v.isEmpty && n.child.isEmpty) || (n.v.isEmpty && !n.child.isEmpty)

mutual

/-- The invariant the parser actually establishes on every reachable
node: the value chain and the child chain are never both non-empty (and
this holds recursively for all children). -/
def nodeInv : CNode → Bool
  | CNode.mk _ v child => (v.isEmpty || child.isEmpty) && nodesInv child

/-- `nodeInv` for every node of a sibling chain. -/
def nodesInv : List CNode → Bool
  | [] => true
  | n :: ns => nodeInv n && nodesInv ns

end

/-- Token kinds that the grammar nonterminal Type accepts. -/
def isTypeTok : Tok → Bool
  | Tok.tInt => true
  | Tok.tFloat => true
  | Tok.tString => true
  | _ => false

/-- The token sequences generated by `Type (',' Type)*`: one or more
Type tokens with exactly one comma between consecutive elements. -/
def commaSepTypes : List Tok → Bool
  | [t] => isTypeTok t
  | t :: c :: rest => isTypeTok t && (c = Tok.tComma) && commaSepTypes rest
  | _ => false

/-- The token sequences generated by the spec's grammar production
`Value := '[' Type (',' Type)* ']' | Type`. -/
def valueGrammar (ts : List Tok) : Bool :=
  match ts with
  | [t] => isTypeTok t
  | Tok.tArrayB :: rest =>
    match rest.getLast? with
    | some Tok.tArrayE => commaSepTypes rest.dropLast
    | _ => false
  | _ => false

/-- The token-kind sequence the tokenizer produces for a buffer,
terminated by the EOF token. -/
def tokenKinds : Nat → List Char → Nat → List Tok
  | 0, _, _ => []
  | fuel + 1, s, line =>
    let p := getToken s line
    if p.t = Tok.tEof then [Tok.tEof] else p.t :: tokenKinds fuel p.rest p.line

/-! ### MD component-device probe (src/lib/device/dev-md.c)

The device collaborators (`dev_get_size`, `dev_open`, `dev_read`,
`dev_close`) are external capabilities; a device is modelled by the
answers they give.  Offsets and sizes are uint64 values; the arithmetic
on them is carried out modulo 2^64 exactly as in C. -/

/-- 2^64, the modulus of the C uint64 arithmetic. -/
def U64 : Nat := 2 ^ 64

/-- uint64 subtraction `a - b` with wrap-around. -/
def sub64 (a b : Nat) : Nat :=
  (a + (U64 - b % U64)) % U64

/-- A block device as seen by dev-md.c: the sector count reported by
`dev_get_size` (`none` = failure), whether `dev_open` succeeds, and the
uint32 word `dev_read` returns at a byte offset (`none` = read
failure). -/
structure MDDev where
  size? : Option Nat
  openOk : Bool
  read32 : Nat → Option Nat

/-- MD_SB_MAGIC (dev-md.c line 24). -/
def MD_SB_MAGIC : Nat := 0xa92b4efc

/-- MD_RESERVED_SECTORS = (64 * 1024) / 512 (dev-md.c lines 25-26). -/
def MD_RESERVED_SECTORS : Nat := 64 * 1024 / 512

/-- MD_NEW_SIZE_SECTORS(x) = (x & ~(MD_RESERVED_SECTORS - 1)) -
MD_RESERVED_SECTORS (dev-md.c lines 27-28), i.e. round x down to a
multiple of 128 sectors and subtract 128, in uint64 arithmetic. -/
def mdNewSizeSectors (x : Nat) : Nat :=
  sub64 (x - x % MD_RESERVED_SECTORS) MD_RESERVED_SECTORS

/-- The 512-byte-sector shift used by `<< SECTOR_SHIFT` (SECTOR_SHIFT is
defined as 9 in the library headers, consistent with dev-md.c line 26
computing sectors as bytes / 512). -/
def shl9 (n : Nat) : Nat :=
  (n * 512) % U64

/-- `xlate32` (from xlate.h): conversion between CPU and little-endian
byte order, i.e. a byte swap on a big-endian host and the identity on a
little-endian one; modelled as the byte swap, which keeps the two
comparisons of `_dev_has_md_magic` distinct as they are in the source. -/
def xlate32 (n : Nat) : Nat :=
  (n % 256) * 2 ^ 24 + (n / 2 ^ 8 % 256) * 2 ^ 16 +
  (n / 2 ^ 16 % 256) * 2 ^ 8 + n / 2 ^ 24 % 256

/-- `_dev_has_md_magic` (dev-md.c lines 30-41): read a uint32 at the
superblock offset and compare it against the magic in both byte orders;
a failed read counts as no magic. -/
def devHasMdMagic (dev : MDDev) (sbOffset : Nat) : Bool :=
  match dev.read32 sbOffset with
  | some w => w == xlate32 MD_SB_MAGIC || w == MD_SB_MAGIC
  | none => false

/-- `_v1_sb_offset` (dev-md.c lines 44-62): the version-1 superblock
byte offset for minor versions 0, 1, 2 (the function is only invoked
with these three values). -/
def v1SbOffset (size : Nat) (minorVersion : Nat) : Nat :=
  let sbOffset :=
    match minorVersion with
    | 0 => let d := sub64 size (8 * 2); d - d % (4 * 2)
    | 1 => 0
    | _ => 4 * 2
  shl9 sbOffset

/-- `dev_is_md` (dev-md.c lines 67-109).  Result: the int return value
(1 present, 0 not present, -1 error) together with the offset stored
through `sb` (written only on the `ret = 1` path).  The version 0.90.0
offset is tried first, then v1.0, v1.1, v1.2 via the do-while loop with
minor = 0, 1, 2. -/
def dev_is_md (dev : MDDev) : Int × Option Nat :=
  match dev.size? with
  | none => (-1, none)
  | some size =>
    if size < MD_RESERVED_SECTORS * 2 then (0, none)
    else if !dev.openOk then (-1, none)
    else
      let off090 := shl9 (mdNewSizeSectors size)
      if devHasMdMagic dev off090 then (1, some off090)
      else
        let o0 := v1SbOffset size 0
        if devHasMdMagic dev o0 then (1, some o0)
        else
          let o1 := v1SbOffset size 1
          if devHasMdMagic dev o1 then (1, some o1)
          else
            let o2 := v1SbOffset size 2
            if devHasMdMagic dev o2 then (1, some o2)
            else (0, none)

/-- The candidate superblock offsets in the order the probe tries them:
the fixed tail-aligned version 0.90.0 offset, then the version-1 offsets
for minor versions 0, 1 and 2. -/
def mdCandidates (size : Nat) : List Nat :=
  [shl9 (mdNewSizeSectors size), v1SbOffset size 0, v1SbOffset size 1, v1SbOffset size 2]

/-- Spec-side description of the probe (spec section 6): Error when the
size query or the open fails; otherwise Present together with the first
candidate offset whose word carries the magic, or NotPresent when no
candidate does. -/
def dev_is_md_spec (dev : MDDev) : Int × Option Nat :=
  match dev.size? with
  | none => (-1, none)
  | some size =>
    if !dev.openOk then (-1, none)
    else
      match (mdCandidates size).find? (devHasMdMagic dev) with
      | some off => (1, some off)
      | none => (0, none)

/-- A 200-sector device whose word at byte offset 0 is the MD magic.
The device is smaller than MD_RESERVED_SECTORS * 2, yet its fixed
tail-aligned version 0.90.0 offset computes to byte 0
(MD_NEW_SIZE_SECTORS(200) = 128 - 128 = 0), an offset that lies on the
device and carries the magic. -/
def devSmall : MDDev :=
  ⟨some 200, true, fun off => if off = 0 then some MD_SB_MAGIC else some 0⟩

/-- A 512-sector device with the MD magic at the v1.2 offset (byte
4096) and nothing anywhere else. -/
def devBig : MDDev :=
  ⟨some 512, true, fun off => if off = 4096 then some MD_SB_MAGIC else some 0⟩

/-! ### Concrete buffers and documents used by the claim theorems -/

/-- The buffer `k="a\` followed by a closing quote: a string literal
whose final quote is escaped, so the scan runs to end of buffer (an
unterminated string, which `_type` nevertheless accepts). -/
def c1buf : List Char := ['k', eqC, quoteC, 'a', bslashC, quoteC]

/-- The document parsed from `c1buf`: one binding `k` whose string value
is the two characters `a\`. -/
def c1doc : List CNode := [CNode.mk ['k'] [CValue.vStr ['a', bslashC]] []]

/-- The text `write_config` emits for `c1doc`: `k="a\"` plus newline —
the stored backslash now escapes the closing quote. -/
def c1out : List Char := ['k', eqC, quoteC, 'a', bslashC, quoteC, nlC]

/-- A whitespace-and-comment-only buffer: `# x`, newline, space. -/
def c2buf : List Char := [hashC, ' ', 'x', nlC, ' ']

/-- The buffer `a { b = 1 }`. -/
def c3buf : List Char :=
  ['a', ' ', lbraceC, ' ', 'b', ' ', eqC, ' ', '1', ' ', rbraceC]

/-- The document parsed from `c3buf`. -/
def c3tree : List CNode := (read_config c3buf).2

/-- The buffer `a { }` — an empty section body. -/
def c4buf : List Char := ['a', ' ', lbraceC, ' ', rbraceC]

/-- The buffer `a=1`, a well-formed binding used as a witness input. -/
def c4wbuf : List Char := ['a', eqC, '1']

/-- The document parsed from `c4wbuf`. -/
def c4wdoc : List CNode := [CNode.mk ['a'] [CValue.vInt 1] []]

/-- The buffer `# c` newline `a = ` — a binding with a missing value on
source line 2, preceded by one comment line. -/
def c5buf : List Char := [hashC, ' ', 'c', nlC, 'a', ' ', eqC, ' ']

/-- The buffer `a = ` alone (missing value on line 1, no comments). -/
def c5buf0 : List Char := ['a', ' ', eqC, ' ']

/-- The buffer `a { b { c = 1 } }`. -/
def c6buf : List Char :=
  ['a', ' ', lbraceC, ' ', 'b', ' ', lbraceC, ' ', 'c', ' ', eqC, ' ',
   '1', ' ', rbraceC, ' ', rbraceC]

/-- The document parsed from `c6buf`. -/
def c6tree : List CNode := (read_config c6buf).2

/-- The path `a/b/c`. -/
def pathABC : List Char := ['a', '/', 'b', '/', 'c']

/-- The path `a/x`. -/
def pathAX : List Char := ['a', '/', 'x']

/-- The buffer `k="a\"b"` — a string literal with an escaped inner
quote. -/
def c7buf : List Char := ['k', eqC, quoteC, 'a', bslashC, quoteC, 'b', quoteC]

/-- The input prefix used by the amended string-storage theorem: the
binding `k=` followed by a quoted body and nothing else. -/
def mkStrInput (body : List Char) : List Char :=
  'k' :: eqC :: quoteC :: body ++ [quoteC]

/-- The buffer `k=[1 2]` — two array elements with no separating
comma. -/
def c8buf : List Char := ['k', eqC, lbrackC, '1', ' ', '2', rbrackC]

/-- The value text `[1 2]` on its own, for tokenization. -/
def c8vbuf : List Char := [lbrackC, '1', ' ', '2', rbrackC]

/-- The buffer `k=[1, 2, 3]`. -/
def c8abuf : List Char :=
  ['k', eqC, lbrackC, '1', commaC, ' ', '2', commaC, ' ', '3', rbrackC]

/-- The buffer `k=[1,2,]` — trailing comma. -/
def c8tbuf : List Char := ['k', eqC, lbrackC, '1', commaC, '2', commaC, rbrackC]

/-- The buffer `k=[]` — empty array body. -/
def c8ebuf : List Char := ['k', eqC, lbrackC, rbrackC]

/-- The buffer `k=[1,,2]` — consecutive commas. -/
def c8dbuf : List Char :=
  ['k', eqC, lbrackC, '1', commaC, commaC, '2', rbrackC]

/-- A buffer whose first character (if any) is neither whitespace nor
`#`, so `_eat_space` leaves it untouched. -/
def plainHead : List Char → Bool
  | [] => true
  | c :: _ => !(isSpaceC c) && c != hashC

/-- Rendering of an integer-array body: each item is a digit string
followed either by a comma or by a single space (the two separator
shapes the optional-comma loop of `_value` accepts between
elements). -/
def renderItems : List (List Char × Bool) → List Char
  | [] => []
  | (ds, b) :: rest => ds ++ (if b then [commaC] else [' ']) ++ renderItems rest

/-- The binding `k=[` followed by a rendered item list and `]`. -/
def mkArrayInput (items : List (List Char × Bool)) : List Char :=
  'k' :: eqC :: lbrackC :: (renderItems items ++ [rbrackC])

/-- A well-formed item list: at least one item, every item a non-empty
digit string. -/
def goodItems (items : List (List Char × Bool)) : Bool :=
  !items.isEmpty && items.all (fun i => !i.1.isEmpty && i.1.all Char.isDigit)

/-! ### Helper lemmas shared by the claim theorems -/

/-- Dropping a prefix never lengthens a list. -/
theorem dropWhile_length_le (p : Char → Bool) (l : List Char) :
    (l.dropWhile p).length ≤ l.length := by
  induction l with
  | nil => simp
  | cons a t ih =>
    simp only [List.dropWhile]
    split
    · exact Nat.le_succ_of_le ih
    · exact Nat.le_refl _

/-- A comment-interior buffer whose remainder is blank stays blank after
skipping to the next newline. -/
theorem blankComment_dropWhile (cs : List Char) (h : blankComment cs = true) :
    blankOnly (cs.dropWhile (fun x => x != nlC)) = true := by
  induction cs with
  | nil => simpa using h
  | cons c t ih =>
    by_cases hnl : c = nlC
    · subst hnl
      simp only [List.dropWhile, bne_self_eq_false]
      have hsp : isSpaceC nlC = true := by decide
      have hh : (nlC == hashC) = false := by decide
      simp only [blankOnly, hh, hsp, if_false, if_true, Bool.false_eq_true]
      simpa [blankComment] using h
    · have hb : (c != nlC) = true := by simp [bne, hnl]
      simp only [List.dropWhile, hb]
      apply ih
      simpa [blankComment, bne, hnl] using h

/-- Blankness is preserved when a whitespace prefix is dropped. -/
theorem blankOnly_dropWhile_space (s : List Char) (h : blankOnly s = true) :
    blankOnly (s.dropWhile isSpaceC) = true := by
  induction s with
  | nil => simpa using h
  | cons c t ih =>
    by_cases hsp : isSpaceC c = true
    · have hh : (c == hashC) = false := by
        cases hq : c == hashC
        · rfl
        · have hch : c = hashC := by simpa using hq
          rw [hch] at hsp
          exact absurd hsp (by decide)
      simp only [List.dropWhile, hsp]
      apply ih
      simpa [blankOnly, hh, hsp] using h
    · simp only [List.dropWhile, Bool.not_eq_true] at hsp ⊢
      simp only [hsp]
      exact h

/-- On a whitespace-and-comment-only buffer, `_eat_space` consumes
everything (for any adequate fuel). -/
theorem eatSpaceF_blank :
    ∀ (fuel : Nat) (s : List Char) (line : Nat), s.length < fuel →
      blankOnly s = true → (eatSpaceF fuel s line).1 = [] := by
  intro fuel
  induction fuel with
  | zero => intro s line hlt; omega
  | succ fuel ih =>
    intro s line hlt hb
    match s with
    | [] => rfl
    | c :: cs =>
      by_cases hh : (c == hashC) = true
      · have hc : c = hashC := by simpa using hh
        simp only [eatSpaceF, hh, if_true]
        have hbc : blankComment cs = true := by
          simpa [blankOnly, hh] using hb
        have harg : (c :: cs).dropWhile (fun x => x != nlC) =
            cs.dropWhile (fun x => x != nlC) := by
          subst hc
          have hb1 : (hashC != nlC) = true := by decide
          simp only [List.dropWhile, hb1]
        rw [harg]
        apply ih _ _ _ (blankComment_dropWhile cs hbc)
        have := dropWhile_length_le (fun x => x != nlC) cs
        simp only [List.length_cons] at hlt
        omega
      · by_cases hs : isSpaceC c = true
        · simp only [eatSpaceF, hh, hs, if_true, if_false, Bool.false_eq_true]
          have hbt : blankOnly cs = true := by
            simpa [blankOnly, hh, hs] using hb
          have harg : (c :: cs).dropWhile isSpaceC = cs.dropWhile isSpaceC := by
            simp [List.dropWhile, hs]
          rw [harg]
          apply ih _ _ _ (blankOnly_dropWhile_space cs hbt)
          have := dropWhile_length_le isSpaceC cs
          simp only [List.length_cons] at hlt
          omega
        · exfalso
          have : blankOnly (c :: cs) = false := by
            simp [blankOnly, hh, hs]
          rw [this] at hb
          exact Bool.false_ne_true hb

/-- A nonzero-fuel `_eat_space` is the identity on a buffer whose first
character is neither `#` nor whitespace. -/
theorem eatSpaceF_plain (fuel : Nat) (hf : fuel ≠ 0) (c : Char)
    (cs : List Char) (line : Nat) (h1 : (c == hashC) = false)
    (h2 : isSpaceC c = false) : eatSpaceF fuel (c :: cs) line = (c :: cs, line) := by
  cases fuel with
  | zero => exact absurd rfl hf
  | succ f => simp [eatSpaceF, h1, h2]

/-- The string scan consumes a regular body verbatim up to and including
the closing quote. -/
theorem strScanGood : ∀ (n : Nat) (body : List Char), body.length ≤ n →
    goodBody body = true → ∀ rest : List Char,
    strScan (body ++ quoteC :: rest) = (body ++ [quoteC], rest) := by
  intro n
  induction n with
  | zero =>
    intro body hlen _ rest
    have hnil : body = [] := by
      cases body with
      | nil => rfl
      | cons c t => simp at hlen
    subst hnil
    rw [List.nil_append, strScan.eq_def]
    dsimp only
    rw [if_pos (by decide), List.nil_append]
  | succ n ih =>
    intro body hlen hb rest
    match body with
    | [] =>
      rw [List.nil_append, strScan.eq_def]
      dsimp only
      rw [if_pos (by decide), List.nil_append]
    | c :: t =>
      have hq : (c == quoteC) = false := by
        cases hcq : c == quoteC
        · rfl
        · have hc : c = quoteC := by simpa using hcq
          rw [hc, goodBody.eq_def] at hb
          dsimp only at hb
          rw [if_pos (by decide)] at hb
          exact absurd hb (by decide)
      cases hbs : c == bslashC with
      | true =>
        have hc : c = bslashC := by simpa using hbs
        match t with
        | [] =>
          rw [hc, goodBody.eq_def] at hb
          dsimp only at hb
          rw [if_neg (by decide), if_pos (by decide)] at hb
          exact absurd hb (by decide)
        | d :: t' =>
          have hgt : goodBody t' = true := by
            rw [hc, goodBody.eq_def] at hb
            dsimp only at hb
            rw [if_neg (by decide), if_pos (by decide)] at hb
            exact hb
          have hlen' : t'.length ≤ n := by
            simp only [List.length_cons] at hlen
            omega
          have hrec := ih t' hlen' hgt rest
          rw [List.cons_append, List.cons_append, strScan.eq_def]
          dsimp only
          rw [hq, hbs]
          simp only [Bool.false_eq_true, if_false, if_true]
          rw [hrec]
          rfl
      | false =>
        have hgt : goodBody t = true := by
          rw [goodBody.eq_def] at hb
          dsimp only at hb
          rw [hq, hbs] at hb
          simpa using hb
        have hlen' : t.length ≤ n := by
          simp only [List.length_cons] at hlen
          omega
        have hrec := ih t hlen' hgt rest
        rw [List.cons_append, strScan.eq_def]
        dsimp only
        rw [hq, hbs]
        simp only [Bool.false_eq_true, if_false]
        rw [hrec]
        rfl

/-- `_get_token` on a quoted string literal with a regular body: the
token is the literal verbatim, quotes included. -/
theorem getToken_string (body rest' : List Char) (line : Nat)
    (hb : goodBody body = true) :
    getToken (quoteC :: (body ++ quoteC :: rest')) line =
      ⟨Tok.tString, quoteC :: (body ++ [quoteC]), rest', line⟩ := by
  unfold getToken
  rw [eatSpaceF_plain ((quoteC :: (body ++ quoteC :: rest')).length + 1)
    (by omega) quoteC (body ++ quoteC :: rest') line (by decide) (by decide)]
  dsimp only
  rw [if_neg (by decide), if_neg (by decide), if_neg (by decide),
    if_neg (by decide), if_neg (by decide), if_neg (by decide),
    if_pos (by decide)]
  rw [strScanGood body.length body (Nat.le_refl _) hb rest']

/-- `_get_token` on `=` followed by anything: the Eq token. -/
theorem getToken_eq (R : List Char) (line : Nat) :
    getToken (eqC :: R) line = ⟨Tok.tEq, [eqC], R, line⟩ := by
  unfold getToken
  rw [eatSpaceF_plain ((eqC :: R).length + 1) (by omega) eqC R line
    (by decide) (by decide)]
  dsimp only
  rw [if_neg (by decide), if_neg (by decide), if_neg (by decide),
    if_neg (by decide), if_neg (by decide), if_pos (by decide)]

/-- `_get_token` on `k` followed by `=`: a one-character identifier. -/
theorem getToken_ident_k (R : List Char) (line : Nat) :
    getToken ('k' :: eqC :: R) line = ⟨Tok.tIdentifier, ['k'], eqC :: R, line⟩ := by
  unfold getToken
  rw [eatSpaceF_plain (('k' :: eqC :: R).length + 1) (by omega) 'k' (eqC :: R)
    line (by decide) (by decide)]
  dsimp only
  rw [if_neg (by decide), if_neg (by decide), if_neg (by decide),
    if_neg (by decide), if_neg (by decide), if_neg (by decide),
    if_neg (by decide), if_neg (by decide), if_neg (by decide)]
  rw [List.takeWhile_cons, List.dropWhile_cons]
  rw [if_pos (by decide), if_pos (by decide)]
  rw [List.takeWhile_cons, List.dropWhile_cons]
  rw [if_neg (by decide), if_neg (by decide)]

/-- `_section` on the state holding the identifier `k` with the
remaining input `=` quote body quote: the resulting binding stores the
body verbatim and the parser is left at EOF. -/
theorem sectionP_string_binding (body : List Char) (hb : goodBody body = true)
    (fuel : Nat) (hf : fuel ≠ 0) :
    sectionP fuel ⟨Tok.tIdentifier, ['k'], eqC :: quoteC :: (body ++ [quoteC]), 1⟩ =
      Except.ok (CNode.mk ['k'] [CValue.vStr body] [], ⟨Tok.tEof, [], [], 1⟩) := by
  cases fuel with
  | zero => exact absurd rfl hf
  | succ f =>
    simp only [sectionP]
    rw [show matchTok Tok.tIdentifier
        (⟨Tok.tIdentifier, ['k'], eqC :: quoteC :: (body ++ [quoteC]), 1⟩ : PState)
        = Except.ok ⟨Tok.tEq, [eqC], quoteC :: (body ++ [quoteC]), 1⟩ from by
      unfold matchTok
      rw [if_pos rfl]
      unfold advance
      dsimp only
      exact congrArg Except.ok (getToken_eq (quoteC :: (body ++ [quoteC])) 1)]
    dsimp only
    rw [if_neg (by decide)]
    rw [show matchTok Tok.tEq
        (⟨Tok.tEq, [eqC], quoteC :: (body ++ [quoteC]), 1⟩ : PState)
        = Except.ok ⟨Tok.tString, quoteC :: (body ++ [quoteC]), [], 1⟩ from by
      unfold matchTok
      rw [if_pos rfl]
      unfold advance
      dsimp only
      exact congrArg Except.ok (getToken_string body [] 1 hb)]
    dsimp only
    rw [show valueP f (⟨Tok.tString, quoteC :: (body ++ [quoteC]), [], 1⟩ : PState)
        = Except.ok ([CValue.vStr body], ⟨Tok.tEof, [], [], 1⟩) from by
      unfold valueP
      dsimp only
      rw [if_neg (by decide)]
      unfold typeP
      dsimp only
      rw [show stripQuotes (quoteC :: (body ++ [quoteC])) = body from by
        unfold stripQuotes
        simp]
      rfl]
    dsimp only
    rw [if_neg (by simp)]

/-- `_eat_space` on the empty buffer, any fuel. -/
theorem eatSpaceF_nil (fuel : Nat) (line : Nat) :
    eatSpaceF fuel [] line = ([], line) := by
  cases fuel with
  | zero => rfl
  | succ f => rfl

/-- `_eat_space` is the identity on a buffer whose first character is
neither `#` nor whitespace — with any fuel, since the zero-fuel base
case also returns the buffer unchanged. -/
theorem eatSpaceF_plain_any (fuel : Nat) (c : Char) (cs : List Char)
    (line : Nat) (h1 : (c == hashC) = false) (h2 : isSpaceC c = false) :
    eatSpaceF fuel (c :: cs) line = (c :: cs, line) := by
  cases fuel with
  | zero => rfl
  | succ f => simp [eatSpaceF, h1, h2]

/-- A digit character differs from any non-digit character. -/
theorem digit_ne (c : Char) (hd : c.isDigit = true) (d : Char)
    (hnd : d.isDigit = false) : (c == d) = false := by
  cases h : c == d
  · rfl
  · have hc : c = d := by simpa using h
    rw [hc] at hd
    rw [hd] at hnd
    exact absurd hnd (by decide)

/-- A digit character is not whitespace. -/
theorem digit_not_space (c : Char) (hd : c.isDigit = true) :
    isSpaceC c = false := by
  unfold isSpaceC
  rw [digit_ne c hd ' ' (by decide), digit_ne c hd (Char.ofNat 9) (by decide),
    digit_ne c hd nlC (by decide), digit_ne c hd (Char.ofNat 11) (by decide),
    digit_ne c hd (Char.ofNat 12) (by decide),
    digit_ne c hd (Char.ofNat 13) (by decide)]
  rfl

/-- The numeric scan consumes a digit string and stops at a non-digit,
non-dot character, leaving the Int classification in place. -/
theorem numScan_digits : ∀ (ds : List Char), ds.all Char.isDigit = true →
    ∀ (c : Char) (R : List Char), c.isDigit = false → (c == dotC) = false →
    numScan false (ds ++ c :: R) = (ds, c :: R, false) := by
  intro ds
  induction ds with
  | nil =>
    intro _ c R hcd hcdot
    rw [List.nil_append]
    simp only [numScan]
    rw [hcdot, hcd]
    simp
  | cons d t ih =>
    intro hall c R hcd hcdot
    simp only [List.all_cons, Bool.and_eq_true] at hall
    obtain ⟨hd, ht⟩ := hall
    rw [List.cons_append]
    simp only [numScan]
    rw [digit_ne d hd dotC (by decide)]
    simp only [Bool.false_eq_true, if_false, hd, if_true]
    rw [ih ht c R hcd hcdot]

/-- `_get_token` on a digit string followed by a stopping character: an
Int token holding exactly the digits. -/
theorem getToken_digits (ds : List Char) (hne : (!ds.isEmpty) = true)
    (hdig : ds.all Char.isDigit = true) (c : Char) (R : List Char)
    (line : Nat) (hcd : c.isDigit = false) (hcdot : (c == dotC) = false) :
    getToken (ds ++ c :: R) line = ⟨Tok.tInt, ds, c :: R, line⟩ := by
  cases ds with
  | nil => exact absurd hne (by decide)
  | cons d ds' =>
    have hd : d.isDigit = true := by
      simp only [List.all_cons, Bool.and_eq_true] at hdig
      exact hdig.1
    have hds' : ds'.all Char.isDigit = true := by
      simp only [List.all_cons, Bool.and_eq_true] at hdig
      exact hdig.2
    rw [List.cons_append]
    unfold getToken
    rw [eatSpaceF_plain_any _ d (ds' ++ c :: R) line
      (digit_ne d hd hashC (by decide)) (digit_not_space d hd)]
    dsimp only
    rw [if_neg (by simp [digit_ne d hd lbraceC (by decide)]),
      if_neg (by simp [digit_ne d hd rbraceC (by decide)]),
      if_neg (by simp [digit_ne d hd lbrackC (by decide)]),
      if_neg (by simp [digit_ne d hd rbrackC (by decide)]),
      if_neg (by simp [digit_ne d hd commaC (by decide)]),
      if_neg (by simp [digit_ne d hd eqC (by decide)]),
      if_neg (by simp [digit_ne d hd quoteC (by decide)]),
      if_neg (by simp [digit_ne d hd dotC (by decide)]),
      if_pos hd]
    rw [numScan_digits ds' hds' c R hcd hcdot]
    rfl

/-- `_get_token` on `,` followed by anything: the Comma token. -/
theorem getToken_comma (R : List Char) (line : Nat) :
    getToken (commaC :: R) line = ⟨Tok.tComma, [commaC], R, line⟩ := by
  unfold getToken
  rw [eatSpaceF_plain_any _ commaC R line (by decide) (by decide)]
  dsimp only
  rw [if_neg (by decide), if_neg (by decide), if_neg (by decide),
    if_neg (by decide), if_pos (by decide)]

/-- `_get_token` on `[` followed by anything: the ArrayBegin token. -/
theorem getToken_lbrack (R : List Char) (line : Nat) :
    getToken (lbrackC :: R) line = ⟨Tok.tArrayB, [lbrackC], R, line⟩ := by
  unfold getToken
  rw [eatSpaceF_plain_any _ lbrackC R line (by decide) (by decide)]
  dsimp only
  rw [if_neg (by decide), if_neg (by decide), if_pos (by decide)]

/-- `_eat_space` consumes a single leading space in front of a plain
buffer. -/
theorem eatSpaceF_space_one (fuel : Nat) (R : List Char) (line : Nat)
    (hp : plainHead R = true) :
    eatSpaceF (fuel + 1) (' ' :: R) line = (R, line) := by
  have h0 : eatSpaceF (fuel + 1) (' ' :: R) line
      = eatSpaceF fuel ((' ' :: R).dropWhile isSpaceC)
          (line + ((' ' :: R).takeWhile isSpaceC).count nlC) := by
    simp only [eatSpaceF]
    rw [if_neg (by decide), if_pos (by decide)]
  rw [h0]
  cases R with
  | nil =>
    rw [show List.dropWhile isSpaceC [' '] = [] from rfl,
      show (List.takeWhile isSpaceC [' ']).count nlC = 0 from rfl]
    exact eatSpaceF_nil fuel line
  | cons c R' =>
    simp only [plainHead, Bool.and_eq_true, Bool.not_eq_true'] at hp
    obtain ⟨hsp, hh⟩ := hp
    have hh' : (c == hashC) = false := by
      simpa [bne] using hh
    rw [show List.dropWhile isSpaceC (' ' :: c :: R') = c :: R' from by
      rw [List.dropWhile_cons, if_pos (by decide), List.dropWhile_cons,
        if_neg (by simp [hsp])]]
    rw [show (List.takeWhile isSpaceC (' ' :: c :: R')).count nlC = 0 from by
      rw [List.takeWhile_cons, if_pos (by decide), List.takeWhile_cons,
        if_neg (by simp [hsp])]
      rfl]
    exact eatSpaceF_plain_any fuel c R' line hh' hsp

/-- `_get_token` skips a single leading space in front of a plain
buffer. -/
theorem getToken_space_skip (R : List Char) (line : Nat)
    (hp : plainHead R = true) :
    getToken (' ' :: R) line = getToken R line := by
  unfold getToken
  rw [show (' ' :: R).length + 1 = (R.length + 1) + 1 from by simp]
  rw [eatSpaceF_space_one (R.length + 1) R line hp]
  cases R with
  | nil => rfl
  | cons c R' =>
    simp only [plainHead, Bool.and_eq_true, Bool.not_eq_true'] at hp
    obtain ⟨hsp, hh⟩ := hp
    have hh' : (c == hashC) = false := by
      simpa [bne] using hh
    rw [eatSpaceF_plain_any ((c :: R').length + 1) c R' line hh' hsp]

/-- A rendered item list followed by `]` starts with a plain character:
the first digit of the first item, or the closing bracket. -/
theorem plainHead_renderItems (items : List (List Char × Bool))
    (hgood : items.all (fun i => !i.1.isEmpty && i.1.all Char.isDigit) = true) :
    plainHead (renderItems items ++ [rbrackC]) = true := by
  cases items with
  | nil => rfl
  | cons item rest =>
    obtain ⟨ds, b⟩ := item
    simp only [List.all_cons, Bool.and_eq_true] at hgood
    obtain ⟨⟨hne, hdig⟩, _⟩ := hgood
    cases ds with
    | nil => simp at hne
    | cons d ds' =>
      simp only [List.all_cons, Bool.and_eq_true] at hdig
      have hd := hdig.1
      rw [show renderItems ((d :: ds', b) :: rest) ++ [rbrackC]
          = d :: (ds' ++ ((if b then [commaC] else [' ']) ++
              (renderItems rest ++ [rbrackC]))) from by
        simp [renderItems, List.append_assoc]]
      simp [plainHead, digit_not_space d hd, bne,
        digit_ne d hd hashC (by decide)]

/-- The token at the head of a rendered item list followed by `]` is
never a comma: it is an Int token or the ArrayEnd token. -/
theorem tok_renderItems_ne_comma (items : List (List Char × Bool))
    (hgood : items.all (fun i => !i.1.isEmpty && i.1.all Char.isDigit) = true) :
    ¬(getToken (renderItems items ++ [rbrackC]) 1).t = Tok.tComma := by
  cases items with
  | nil =>
    rw [show renderItems [] ++ [rbrackC] = [rbrackC] from rfl]
    rw [show getToken [rbrackC] 1 = ⟨Tok.tArrayE, [rbrackC], [], 1⟩ from rfl]
    simp
  | cons item rest =>
    obtain ⟨ds, b⟩ := item
    simp only [List.all_cons, Bool.and_eq_true] at hgood
    obtain ⟨⟨hne, hdig⟩, _⟩ := hgood
    cases b with
    | true =>
      rw [show renderItems ((ds, true) :: rest) ++ [rbrackC]
          = ds ++ commaC :: (renderItems rest ++ [rbrackC]) from by
        simp [renderItems, List.append_assoc]]
      rw [getToken_digits ds hne hdig commaC (renderItems rest ++ [rbrackC])
        1 (by decide) (by decide)]
      simp
    | false =>
      rw [show renderItems ((ds, false) :: rest) ++ [rbrackC]
          = ds ++ ' ' :: (renderItems rest ++ [rbrackC]) from by
        simp [renderItems, List.append_assoc]]
      rw [getToken_digits ds hne hdig ' ' (renderItems rest ++ [rbrackC])
        1 (by decide) (by decide)]
      simp

/-- Each rendered item contributes at least one character. -/
theorem renderItems_length : ∀ items : List (List Char × Bool),
    items.length ≤ (renderItems items).length := by
  intro items
  induction items with
  | nil => simp [renderItems]
  | cons item rest ih =>
    obtain ⟨ds, b⟩ := item
    simp only [renderItems, List.length_append, List.length_cons]
    cases b with
    | true =>
      simp only [if_true, List.length_cons, List.length_nil]
      omega
    | false =>
      simp only [Bool.false_eq_true, if_false, List.length_cons,
        List.length_nil]
      omega

/-- The element loop of `_value` on a rendered item list: it collects
one Int value per item, consuming the optional comma after each, and
stops at the closing bracket. -/
theorem valuesLoop_items : ∀ (items : List (List Char × Bool)),
    items.all (fun i => !i.1.isEmpty && i.1.all Char.isDigit) = true →
    ∀ fuel : Nat, items.length < fuel → ∀ acc : List CValue,
    valuesLoop fuel (getToken (renderItems items ++ [rbrackC]) 1) acc =
      Except.ok (acc ++ items.map (fun i => CValue.vInt (strtolM i.1)),
        ⟨Tok.tArrayE, [rbrackC], [], 1⟩) := by
  intro items
  induction items with
  | nil =>
    intro _ fuel hf acc
    rw [show renderItems [] ++ [rbrackC] = [rbrackC] from rfl,
      show getToken [rbrackC] 1 = ⟨Tok.tArrayE, [rbrackC], [], 1⟩ from rfl]
    cases fuel with
    | zero => omega
    | succ f => simp [valuesLoop]
  | cons item rest ih =>
    intro hgood fuel hf acc
    obtain ⟨ds, b⟩ := item
    simp only [List.all_cons, Bool.and_eq_true] at hgood
    obtain ⟨⟨hne, hdig⟩, hrest⟩ := hgood
    cases fuel with
    | zero => omega
    | succ f =>
      have hflen : rest.length < f := by
        simp only [List.length_cons] at hf
        omega
      cases b with
      | true =>
        rw [show renderItems ((ds, true) :: rest) ++ [rbrackC]
            = ds ++ commaC :: (renderItems rest ++ [rbrackC]) from by
          simp [renderItems, List.append_assoc]]
        rw [getToken_digits ds hne hdig commaC (renderItems rest ++ [rbrackC])
          1 (by decide) (by decide)]
        simp only [valuesLoop]
        rw [if_neg (by simp)]
        rw [show typeP (⟨Tok.tInt, ds, commaC :: (renderItems rest ++ [rbrackC]),
              1⟩ : PState)
            = Except.ok (CValue.vInt (strtolM ds),
                ⟨Tok.tComma, [commaC], renderItems rest ++ [rbrackC], 1⟩) from by
          unfold typeP
          dsimp only
          rw [show advance (⟨Tok.tInt, ds,
              commaC :: (renderItems rest ++ [rbrackC]), 1⟩ : PState)
              = (⟨Tok.tComma, [commaC], renderItems rest ++ [rbrackC], 1⟩ :
                  PState) from by
            unfold advance
            dsimp only
            exact getToken_comma (renderItems rest ++ [rbrackC]) 1]]
        dsimp only
        rw [if_pos rfl]
        rw [show advance (⟨Tok.tComma, [commaC],
            renderItems rest ++ [rbrackC], 1⟩ : PState)
            = getToken (renderItems rest ++ [rbrackC]) 1 from rfl]
        rw [ih hrest f hflen (acc ++ [CValue.vInt (strtolM ds)])]
        simp
      | false =>
        rw [show renderItems ((ds, false) :: rest) ++ [rbrackC]
            = ds ++ ' ' :: (renderItems rest ++ [rbrackC]) from by
          simp [renderItems, List.append_assoc]]
        rw [getToken_digits ds hne hdig ' ' (renderItems rest ++ [rbrackC])
          1 (by decide) (by decide)]
        simp only [valuesLoop]
        rw [if_neg (by simp)]
        rw [show typeP (⟨Tok.tInt, ds, ' ' :: (renderItems rest ++ [rbrackC]),
              1⟩ : PState)
            = Except.ok (CValue.vInt (strtolM ds),
                getToken (renderItems rest ++ [rbrackC]) 1) from by
          unfold typeP
          dsimp only
          rw [show advance (⟨Tok.tInt, ds,
              ' ' :: (renderItems rest ++ [rbrackC]), 1⟩ : PState)
              = getToken (' ' :: (renderItems rest ++ [rbrackC])) 1 from rfl]
          rw [getToken_space_skip (renderItems rest ++ [rbrackC]) 1
            (plainHead_renderItems rest hrest)]]
        dsimp only
        rw [if_neg (tok_renderItems_ne_comma rest hrest)]
        rw [ih hrest f hflen (acc ++ [CValue.vInt (strtolM ds)])]
        simp

/-! ### Claim theorems -/

/-- Claim C2 (code_bug): for every buffer containing only whitespace and
`#`-comments, `_file` accepts zero sections and returns a NULL root, but
`read_config` cannot distinguish that NULL from a parse failure and
returns 0 (failure) — while indeed leaving the Document empty. -/
theorem c2_blank_input_reports_failure (s : List Char)
    (hb : blankOnly s = true) : read_config s = (false, []) := by
  rcases hE : eatSpaceF (s.length + 1) s 1 with ⟨s1, ln⟩
  have h1 : s1 = [] := by
    have := eatSpaceF_blank (s.length + 1) s 1 (Nat.lt_succ_self _) hb
    rw [hE] at this
    exact this
  subst h1
  have hgt : getToken s 1 = ⟨Tok.tEof, [], [], ln⟩ := by
    unfold getToken
    rw [hE]
  have hf : 2 * s.length + 8 = (2 * s.length + 7) + 1 := by omega
  unfold read_config parseDoc
  rw [hgt, hf]
  simp [fileLoop]

/-- Witness for the blank-input theorem at the concrete buffer
`# x` newline space. -/
theorem c2_blank_input_witness :
    blankOnly c2buf = true ∧ read_config c2buf = (false, []) :=
  ⟨rfl, c2_blank_input_reports_failure c2buf rfl⟩


/-- Concatenation splits the sibling-chain invariant. -/
theorem nodesInv_append (l1 l2 : List CNode) :
    nodesInv (l1 ++ l2) = (nodesInv l1 && nodesInv l2) := by
  induction l1 with
  | nil => simp [nodesInv]
  | cons n ns ih => simp [nodesInv, ih, Bool.and_assoc]

/-- Every node `_section` returns satisfies the never-both invariant,
and the section loop preserves it, for every fuel. -/
theorem sectionP_inv : ∀ fuel : Nat,
    (∀ (p : PState) (r : CNode × PState),
      sectionP fuel p = Except.ok r → nodeInv r.1 = true) ∧
    (∀ (p : PState) (acc : List CNode) (r : List CNode × PState),
      sectionsLoop fuel p acc = Except.ok r →
      nodesInv acc = true → nodesInv r.1 = true) := by
  intro fuel
  induction fuel with
  | zero =>
    constructor
    · intro p r h
      simp [sectionP] at h
    · intro p acc r h _
      simp [sectionsLoop] at h
  | succ fuel ih =>
    constructor
    · intro p r h
      simp only [sectionP] at h
      cases hm : matchTok Tok.tIdentifier p with
      | error l => rw [hm] at h; exact absurd h (by simp)
      | ok p1 =>
        rw [hm] at h
        dsimp only at h
        by_cases hb : p1.t = Tok.tSectionB
        · rw [if_pos hb] at h
          cases hl : sectionsLoop fuel (advance p1) [] with
          | error l => rw [hl] at h; exact absurd h (by simp)
          | ok cs =>
            obtain ⟨cs1, p2⟩ := cs
            rw [hl] at h
            dsimp only at h
            have hr : r = (CNode.mk p.text [] cs1, advance p2) := by
              cases h
              rfl
            subst hr
            have hcs : nodesInv cs1 = true := ih.2 (advance p1) [] (cs1, p2) hl rfl
            simp [nodeInv, hcs]
        · rw [if_neg hb] at h
          cases he : matchTok Tok.tEq p1 with
          | error l => rw [he] at h; exact absurd h (by simp)
          | ok p2 =>
            rw [he] at h
            dsimp only at h
            cases hv : valueP fuel p2 with
            | error l => rw [hv] at h; exact absurd h (by simp)
            | ok vp =>
              obtain ⟨vs, p3⟩ := vp
              rw [hv] at h
              dsimp only at h
              by_cases hemp : vs.isEmpty = true
              · rw [if_pos hemp] at h; exact absurd h (by simp)
              · rw [if_neg hemp] at h
                have hr : r = (CNode.mk p.text vs [], p3) := by
                  cases h
                  rfl
                subst hr
                simp [nodeInv, nodesInv]
    · intro p acc r h hacc
      simp only [sectionsLoop] at h
      by_cases hse : p.t = Tok.tSectionE
      · rw [if_pos hse] at h
        have hr : r = (acc, p) := by
          cases h
          rfl
        subst hr
        exact hacc
      · rw [if_neg hse] at h
        cases hs : sectionP fuel p with
        | error l => rw [hs] at h; exact absurd h (by simp)
        | ok np =>
          obtain ⟨n, p1⟩ := np
          rw [hs] at h
          dsimp only at h
          have hn : nodeInv n = true := ih.1 p (n, p1) hs
          exact ih.2 p1 (acc ++ [n]) r h
            (by rw [nodesInv_append]; simp [nodesInv, hacc, hn])

/-- The `_file` loop preserves the never-both invariant. -/
theorem fileLoop_inv : ∀ (fuel : Nat) (p : PState) (acc : List CNode)
    (r : List CNode × PState), fileLoop fuel p acc = Except.ok r →
    nodesInv acc = true → nodesInv r.1 = true := by
  intro fuel
  induction fuel with
  | zero =>
    intro p acc r h _
    simp [fileLoop] at h
  | succ fuel ih =>
    intro p acc r h hacc
    simp only [fileLoop] at h
    by_cases he : p.t = Tok.tEof
    · rw [if_pos he] at h
      have hr : r = (acc, p) := by
        cases h
        rfl
      subst hr
      exact hacc
    · rw [if_neg he] at h
      cases hs : sectionP fuel p with
      | error l => rw [hs] at h; exact absurd h (by simp)
      | ok np =>
        obtain ⟨n, p1⟩ := np
        rw [hs] at h
        dsimp only at h
        have hn : nodeInv n = true := (sectionP_inv fuel).1 p (n, p1) hs
        exact ih p1 (acc ++ [n]) r h
          (by rw [nodesInv_append]; simp [nodesInv, hacc, hn])

/-- Claim C4 amended: every node reachable from a successfully parsed
Document never has both a non-empty value chain and a non-empty child
chain — a binding always has empty children and a section always has an
empty value chain, but a section's child chain may itself be empty (the
counterexample `a { }`), so the original "never neither" half fails. -/
theorem c4_never_both_values_and_children (s : List Char) (ns : List CNode)
    (h : parseDoc s = Except.ok ns) : nodesInv ns = true := by
  unfold parseDoc at h
  cases hf : fileLoop (2 * s.length + 8) (getToken s 1) [] with
  | error l => rw [hf] at h; exact absurd h (by simp)
  | ok r =>
    rw [hf] at h
    have hr : ns = r.1 := by
      cases h
      rfl
    rw [hr]
    exact fileLoop_inv _ _ _ _ hf rfl

/-- Witness for the never-both invariant at the parse of `a=1`. -/
theorem c4_never_both_witness :
    parseDoc c4wbuf = Except.ok c4wdoc ∧ nodesInv c4wdoc = true :=
  ⟨rfl, c4_never_both_values_and_children c4wbuf c4wdoc rfl⟩

/-- Claim C1 (code_bug): write-then-reparse is claimed to reproduce the
Document, but for the document parsed from `k="a\` + `"` (an escaped
final quote, accepted as an unterminated string token) the stored string
value is `a\`; `write_config` re-emits it unescaped as `k="a\"`, and
re-parsing that text yields the different string value `a\"`. -/
theorem c1_roundtrip_fails_on_unterminated_string :
    read_config c1buf = (true, c1doc) ∧
    write_config c1doc = c1out ∧
    read_config c1out =
      (true, [CNode.mk ['k'] [CValue.vStr ['a', bslashC, quoteC]] []]) ∧
    (['a', bslashC] : List Char) ≠ ['a', bslashC, quoteC] := by
  refine ⟨rfl, rfl, rfl, ?_⟩
  decide

/-- Claim C3 (code_bug): the typed lookups are claimed never to fail and
to return the default when the path resolves to a section node, but for
the tree of `a { b = 1 }` a lookup of path `a` resolves to the section
node `a`, whose `v` pointer is NULL, and `n->v->type` dereferences it —
modelled as the `none` outcome for all three typed lookups.  On binding
nodes the claimed behaviour does hold: the matching variant returns the
stored value and a mismatching variant returns the default. -/
theorem c3_typed_lookup_section_node_crash :
    find_config_str c3tree ['a'] '/' (some ['d']) = none ∧
    find_config_int c3tree ['a'] '/' 7 = none ∧
    find_config_float c3tree ['a'] '/' (3 : Rat) = none ∧
    find_config_int c3tree ['a', '/', 'b'] '/' 7 = some 1 ∧
    find_config_str c3tree ['a', '/', 'b'] '/' (some ['d']) = some (some ['d']) ∧
    find_config_int c3tree ['x'] '/' 7 = some 7 := by
  exact ⟨rfl, rfl, rfl, rfl, rfl, rfl⟩

/-- Claim C4 counterexample: the empty section body `a { }` parses
successfully to a node with an empty value chain and an empty child
chain — a node that is neither a binding nor a non-empty section,
contradicting the claimed "never neither" exclusive-or shape. -/
theorem c4_empty_section_breaks_xor :
    read_config c4buf = (true, [CNode.mk ['a'] [] []]) ∧
    claimXorShape (CNode.mk ['a'] [] []) = false := by
  exact ⟨rfl, rfl⟩

/-- Claim C5 (code_bug): for `a = ` at end of input the parse fails at
the correct line (line 1), but when a comment line precedes it
(`# c` newline `a = `, mismatch on source line 2) the reported line is
3: `_eat_space` increments the line counter once when it skips the
comment body and again when the whitespace branch consumes the same
newline.  In both cases the failure leaves no retrievable node. -/
theorem c5_error_line_overcounted_after_comment :
    parseDoc c5buf = Except.error 3 ∧
    read_config c5buf = (false, []) ∧
    parseDoc c5buf0 = Except.error 1 ∧
    read_config c5buf0 = (false, []) := by
  exact ⟨rfl, rfl, rfl, rfl⟩

/-- Claim C8 counterexample: the value text `[1 2]` tokenizes to
ArrayBegin, Int, Int, ArrayEnd with no comma, a sequence the grammar
production `Value := '[' Type (',' Type)* ']' | Type` does not generate,
yet `k=[1 2]` parses successfully to a two-element value chain — the
parser accepts strictly more than the production. -/
theorem c8_value_grammar_not_exact :
    tokenKinds (c8vbuf.length + 1) c8vbuf 1 =
      [Tok.tArrayB, Tok.tInt, Tok.tInt, Tok.tArrayE, Tok.tEof] ∧
    valueGrammar [Tok.tArrayB, Tok.tInt, Tok.tInt, Tok.tArrayE] = false ∧
    read_config c8buf = (true, [CNode.mk ['k'] [CValue.vInt 1, CValue.vInt 2] []]) := by
  exact ⟨rfl, rfl, rfl⟩

/-- `_section` on the state holding the identifier `k` with the
remaining input `=[` rendered items `]`: the resulting binding stores
one Int value per item and the parser is left at EOF. -/
theorem sectionP_array_binding (items : List (List Char × Bool))
    (hgood : goodItems items = true) (fuel : Nat)
    (hf : items.length + 1 < fuel) :
    sectionP fuel ⟨Tok.tIdentifier, ['k'],
        eqC :: lbrackC :: (renderItems items ++ [rbrackC]), 1⟩ =
      Except.ok (CNode.mk ['k']
        (items.map (fun i => CValue.vInt (strtolM i.1))) [],
        ⟨Tok.tEof, [], [], 1⟩) := by
  have hgood' : items.all (fun i => !i.1.isEmpty && i.1.all Char.isDigit)
      = true := by
    simp only [goodItems, Bool.and_eq_true] at hgood
    exact hgood.2
  have hni : (!items.isEmpty) = true := by
    simp only [goodItems, Bool.and_eq_true] at hgood
    exact hgood.1
  cases fuel with
  | zero => omega
  | succ f =>
    simp only [sectionP]
    rw [show matchTok Tok.tIdentifier (⟨Tok.tIdentifier, ['k'],
        eqC :: lbrackC :: (renderItems items ++ [rbrackC]), 1⟩ : PState)
        = Except.ok ⟨Tok.tEq, [eqC],
            lbrackC :: (renderItems items ++ [rbrackC]), 1⟩ from by
      unfold matchTok
      rw [if_pos rfl]
      unfold advance
      dsimp only
      exact congrArg Except.ok
        (getToken_eq (lbrackC :: (renderItems items ++ [rbrackC])) 1)]
    dsimp only
    rw [if_neg (by decide)]
    rw [show matchTok Tok.tEq (⟨Tok.tEq, [eqC],
        lbrackC :: (renderItems items ++ [rbrackC]), 1⟩ : PState)
        = Except.ok ⟨Tok.tArrayB, [lbrackC],
            renderItems items ++ [rbrackC], 1⟩ from by
      unfold matchTok
      rw [if_pos rfl]
      unfold advance
      dsimp only
      exact congrArg Except.ok
        (getToken_lbrack (renderItems items ++ [rbrackC]) 1)]
    dsimp only
    rw [show valueP f (⟨Tok.tArrayB, [lbrackC],
        renderItems items ++ [rbrackC], 1⟩ : PState)
        = Except.ok (items.map (fun i => CValue.vInt (strtolM i.1)),
            ⟨Tok.tEof, [], [], 1⟩) from by
      unfold valueP
      dsimp only
      rw [if_pos rfl]
      rw [show advance (⟨Tok.tArrayB, [lbrackC],
          renderItems items ++ [rbrackC], 1⟩ : PState)
          = getToken (renderItems items ++ [rbrackC]) 1 from rfl]
      rw [valuesLoop_items items hgood' f (by omega) []]
      dsimp only
      rw [show advance (⟨Tok.tArrayE, [rbrackC], [], 1⟩ : PState)
          = (⟨Tok.tEof, [], [], 1⟩ : PState) from rfl]
      rw [List.nil_append]]
    dsimp only
    rw [if_neg (show
        ¬(items.map (fun i => CValue.vInt (strtolM i.1))).isEmpty = true from by
      cases items with
      | nil => exact absurd hni (by decide)
      | cons it r => simp)]

/-- Claim C7 counterexample: for the input `k="a\"b"` (escaped inner
quote) the stored string is the four characters `a`, backslash, quote,
`b` — the escape backslash is retained, not removed as claimed. -/
theorem c7_escape_backslash_retained :
    read_config c7buf =
      (true, [CNode.mk ['k'] [CValue.vStr ['a', bslashC, quoteC, 'b']] []]) ∧
    (['a', bslashC, quoteC, 'b'] : List Char) ≠ ['a', quoteC, 'b'] := by
  exact ⟨rfl, by decide⟩

/-- A nonzero-fuel `_file` loop stops at EOF. -/
theorem fileLoop_eof (fuel : Nat) (hf : fuel ≠ 0) (p : PState)
    (acc : List CNode) (h : p.t = Tok.tEof) :
    fileLoop fuel p acc = Except.ok (acc, p) := by
  cases fuel with
  | zero => exact absurd rfl hf
  | succ f => simp [fileLoop, h]

/-- One iteration of the `_file` loop around a successful `_section`. -/
theorem fileLoop_step_ok (fuel : Nat) (p : PState) (acc : List CNode)
    (hne : ¬p.t = Tok.tEof) (n : CNode) (p1 : PState)
    (hs : sectionP fuel p = Except.ok (n, p1)) :
    fileLoop (fuel + 1) p acc = fileLoop fuel p1 (acc ++ [n]) := by
  simp only [fileLoop]
  rw [if_neg hne, hs]

/-- Claim C7 amended: the parser strips exactly the surrounding quote
characters and stores the characters between them verbatim — backslash
sequences included, in particular the backslash of an escaped `"` is
kept: for every regular literal body, parsing `k=` followed by the
quoted body yields exactly that body as the stored string. -/
theorem c7_string_stored_verbatim (body : List Char)
    (hb : goodBody body = true) :
    read_config (mkStrInput body) =
      (true, [CNode.mk ['k'] [CValue.vStr body] []]) := by
  unfold read_config parseDoc
  rw [show getToken (mkStrInput body) 1 =
      ⟨Tok.tIdentifier, ['k'], eqC :: quoteC :: (body ++ [quoteC]), 1⟩ from by
    unfold mkStrInput
    rw [List.cons_append, List.cons_append, List.cons_append]
    exact getToken_ident_k (quoteC :: (body ++ [quoteC])) 1]
  rw [show 2 * (mkStrInput body).length + 8
      = (2 * (mkStrInput body).length + 7) + 1 from by omega]
  rw [fileLoop_step_ok (2 * (mkStrInput body).length + 7) _ [] (by simp)
    (CNode.mk ['k'] [CValue.vStr body] []) ⟨Tok.tEof, [], [], 1⟩
    (sectionP_string_binding body hb _ (by omega))]
  rw [fileLoop_eof (2 * (mkStrInput body).length + 7) (by omega) _ _ rfl]
  rfl

/-- Witness for the verbatim string-storage theorem at the body
`a` backslash quote `b`. -/
theorem c7_string_stored_verbatim_witness :
    goodBody ['a', bslashC, quoteC, 'b'] = true ∧
    read_config (mkStrInput ['a', bslashC, quoteC, 'b']) =
      (true, [CNode.mk ['k'] [CValue.vStr ['a', bslashC, quoteC, 'b']] []]) :=
  ⟨rfl, c7_string_stored_verbatim ['a', bslashC, quoteC, 'b'] rfl⟩

/-- Claim C8 amended: inside brackets the comma separators are optional
— for every non-empty list of digit-string items, each followed either
by a comma or by a space (so a trailing comma before `]` is also
accepted), `k=[` items `]` parses successfully to one Integer value per
item in source order — while the empty bracket body and consecutive
commas are rejected, a bare Type is accepted, and `k = [1, 2, 3]`
yields three Integer values in source order. -/
theorem c8_array_comma_optional_general :
    (∀ items : List (List Char × Bool), goodItems items = true →
      read_config (mkArrayInput items) =
        (true, [CNode.mk ['k']
          (items.map (fun i => CValue.vInt (strtolM i.1))) []])) ∧
    read_config c8abuf =
      (true, [CNode.mk ['k']
        [CValue.vInt 1, CValue.vInt 2, CValue.vInt 3] []]) ∧
    read_config c8buf =
      (true, [CNode.mk ['k'] [CValue.vInt 1, CValue.vInt 2] []]) ∧
    read_config c8tbuf =
      (true, [CNode.mk ['k'] [CValue.vInt 1, CValue.vInt 2] []]) ∧
    read_config c8ebuf = (false, []) ∧
    read_config c8dbuf = (false, []) ∧
    read_config c4wbuf = (true, [CNode.mk ['a'] [CValue.vInt 1] []]) := by
  refine ⟨?_, rfl, rfl, rfl, rfl, rfl, rfl⟩
  intro items hgood
  have hlen : (mkArrayInput items).length = (renderItems items).length + 4 := by
    simp [mkArrayInput]
  have hril := renderItems_length items
  unfold read_config parseDoc
  rw [show getToken (mkArrayInput items) 1
      = ⟨Tok.tIdentifier, ['k'],
          eqC :: lbrackC :: (renderItems items ++ [rbrackC]), 1⟩ from by
    unfold mkArrayInput
    exact getToken_ident_k (lbrackC :: (renderItems items ++ [rbrackC])) 1]
  rw [show 2 * (mkArrayInput items).length + 8
      = (2 * (mkArrayInput items).length + 7) + 1 from by omega]
  rw [fileLoop_step_ok (2 * (mkArrayInput items).length + 7) _ [] (by simp)
    (CNode.mk ['k'] (items.map (fun i => CValue.vInt (strtolM i.1))) [])
    ⟨Tok.tEof, [], [], 1⟩
    (sectionP_array_binding items hgood _ (by omega))]
  rw [fileLoop_eof (2 * (mkArrayInput items).length + 7) (by omega) _ _ rfl]
  rfl

/-- Witness for the optional-comma acceptance at the item list
rendering the buffer `k=[1,2 3,]` (comma, space, trailing comma). -/
theorem c8_array_comma_optional_witness :
    goodItems [(['1'], true), (['2'], false), (['3'], true)] = true ∧
    read_config (mkArrayInput [(['1'], true), (['2'], false), (['3'], true)]) =
      (true, [CNode.mk ['k']
        [CValue.vInt 1, CValue.vInt 2, CValue.vInt 3] []]) :=
  ⟨rfl, by
    have h := c8_array_comma_optional_general.1
      [(['1'], true), (['2'], false), (['3'], true)] rfl
    exact h⟩

/-- The head of a non-empty `dropWhile` result fails the predicate. -/
theorem dropWhile_head_not (p : Char → Bool) : ∀ (l : List Char) (a : Char)
    (t : List Char), l.dropWhile p = a :: t → p a = false := by
  intro l
  induction l with
  | nil =>
    intro a t h
    simp [List.dropWhile] at h
  | cons x xs ih =>
    intro a t h
    rw [List.dropWhile_cons] at h
    by_cases hx : p x = true
    · rw [if_pos hx] at h
      exact ih a t h
    · rw [if_neg hx] at h
      cases h
      simpa using hx

/-- A non-empty path remainder is strictly shorter than the path: the
trimmed leading separators and the non-empty segment were consumed. -/
theorem seg_rest_lt (sep : Char) (path : List Char)
    (h : (path.dropWhile (fun c => c == sep)).dropWhile (fun c => c != sep) ≠ []) :
    ((path.dropWhile (fun c => c == sep)).dropWhile (fun c => c != sep)).length
      < path.length := by
  cases hp1 : path.dropWhile (fun c => c == sep) with
  | nil =>
    rw [hp1] at h
    simp at h
  | cons a t =>
    have ha : (a == sep) = false := dropWhile_head_not _ path a t hp1
    have ha' : (a != sep) = true := by simp [bne, ha]
    rw [List.dropWhile_cons, if_pos ha']
    have h1 : (t.dropWhile (fun c => c != sep)).length ≤ t.length :=
      dropWhile_length_le _ _
    have h2 : (a :: t).length ≤ path.length := by
      rw [← hp1]
      exact dropWhile_length_le _ _
    simp only [List.length_cons] at h2
    omega

/-- With nonzero fuel the segment split always produces at least one
segment (the last segment may be empty, but it is present). -/
theorem segsGo_ne_nil (sep : Char) (fuel : Nat) (hf : fuel ≠ 0)
    (path : List Char) : (segsGo sep fuel path).isEmpty = false := by
  cases fuel with
  | zero => exact absurd rfl hf
  | succ f =>
    simp only [segsGo]
    by_cases hre : ((path.dropWhile (fun c => c == sep)).dropWhile
        (fun c => c != sep)).isEmpty = true
    · rw [if_pos hre]
      rfl
    · rw [if_neg hre]
      rfl

/-- The loop of `find_config_node` computes exactly the spec-side search
over the pre-split segment list, when the fuel exceeds the path
length. -/
theorem findGo_segs : ∀ (fuel : Nat) (sep : Char) (ns : List CNode)
    (path : List Char), path.length < fuel →
    findGo sep fuel ns path = find_node_segs ns (segsGo sep fuel path) := by
  intro fuel
  induction fuel with
  | zero =>
    intro sep ns path h
    omega
  | succ fuel ih =>
    intro sep ns path hlen
    simp only [findGo, segsGo]
    cases hfind : ns.find? (fun n => tokMatch n.key
        ((path.dropWhile (fun c => c == sep)).takeWhile (fun c => c != sep))) with
    | none =>
      by_cases hre : ((path.dropWhile (fun c => c == sep)).dropWhile
          (fun c => c != sep)).isEmpty = true
      · simp [find_node_segs, hfind, hre]
      · simp [find_node_segs, hfind, hre]
    | some n =>
      by_cases hre : ((path.dropWhile (fun c => c == sep)).dropWhile
          (fun c => c != sep)).isEmpty = true
      · simp [find_node_segs, hfind, hre]
      · simp only [find_node_segs, hfind, hre, Bool.false_eq_true, if_false]
        have hne : (path.dropWhile (fun c => c == sep)).dropWhile
            (fun c => c != sep) ≠ [] := by
          cases hr : (path.dropWhile (fun c => c == sep)).dropWhile
              (fun c => c != sep) with
          | nil => rw [hr] at hre; simp at hre
          | cons x xs => simp
        have hlt := seg_rest_lt sep path hne
        rw [segsGo_ne_nil sep fuel (by omega)]
        simp only [Bool.false_eq_true, if_false]
        exact ih sep n.child
          ((path.dropWhile (fun c => c == sep)).dropWhile (fun c => c != sep))
          (by omega)

/-- Claim C6: `find_config_node` implements the spec's path-resolution
algorithm — split on the separator (trimming leading separators at each
boundary), search siblings left-to-right for an exact key match at each
segment, descend only while segments remain, return the node matched at
the last segment — and on the tree of `a { b { c = 1 } }` the path
`a/b/c` locates the binding `c` while `a/x` finds nothing. -/
theorem c6_find_node_follows_spec :
    (∀ (ns : List CNode) (path : List Char) (sep : Char),
      find_config_node ns path sep = find_node_segs ns (pathSegs sep path)) ∧
    find_config_node c6tree pathABC '/' = some (CNode.mk ['c'] [CValue.vInt 1] []) ∧
    find_config_node c6tree pathAX '/' = none := by
  refine ⟨?_, rfl, rfl⟩
  intro ns path sep
  exact findGo_segs (path.length + 1) sep ns path (Nat.lt_succ_self _)

/-- The hunt for an empty segment fails on any sibling list whose keys
are all non-empty. -/
theorem find_empty_seg_none : ∀ (ns : List CNode),
    (∀ n ∈ ns, n.key ≠ []) →
    ns.find? (fun n => tokMatch n.key []) = none := by
  intro ns h
  induction ns with
  | nil => rfl
  | cons n t ih =>
    have hk : tokMatch n.key [] = false := by
      cases hkey : n.key with
      | nil => exact absurd hkey (h n (by simp))
      | cons c cs => rfl
    simp only [List.find?, hk]
    exact ih (fun m hm => h m (by simp [hm]))

/-- Claim C10: on a path that is empty or consists only of separator
characters, `find_config_node` returns nothing for every tree whose
top-level keys are non-empty — the empty segment cannot match any
key. -/
theorem c10_separator_only_path_finds_nothing (ns : List CNode)
    (path : List Char) (sep : Char)
    (hpath : path.all (fun c => c == sep) = true)
    (hkeys : ∀ n ∈ ns, n.key ≠ []) :
    find_config_node ns path sep = none := by
  unfold find_config_node
  simp only [findGo]
  have hp1 : path.dropWhile (fun c => c == sep) = [] := by
    induction path with
    | nil => rfl
    | cons c t ih =>
      simp only [List.all_cons, Bool.and_eq_true] at hpath
      rw [List.dropWhile_cons, if_pos hpath.1]
      exact ih hpath.2
  rw [hp1]
  simp only [List.takeWhile_nil, List.dropWhile_nil]
  rw [find_empty_seg_none ns hkeys]

/-- Witness for the separator-only-path theorem on the tree of
`a { b { c = 1 } }` and the path `//`. -/
theorem c10_separator_only_witness :
    (['/', '/'] : List Char).all (fun c => c == '/') = true ∧
    find_config_node c6tree ['/', '/'] '/' = none :=
  ⟨rfl, c10_separator_only_path_finds_nothing c6tree ['/', '/'] '/' rfl
    (by decide)⟩

/-- Claim C9 counterexample: a 200-sector device carrying the MD magic
at byte offset 0 — which is exactly the fixed tail-aligned offset
MD_NEW_SIZE_SECTORS(200) << 9 = 0 the claim says is checked first — is
reported NotPresent by `dev_is_md`, which returns 0 for any device
smaller than MD_RESERVED_SECTORS * 2 sectors without opening it or
checking any offset, while the claimed procedure finds the magic at the
first candidate offset. -/
theorem c9_small_device_skips_probe :
    dev_is_md devSmall = (0, none) ∧
    dev_is_md_spec devSmall = (1, some 0) ∧
    shl9 (mdNewSizeSectors 200) = 0 := by
  refine ⟨?_, ?_, ?_⟩
  · rfl
  · rfl
  · rfl

/-- Claim C9 amended: `dev_is_md` returns Error (-1) when the size
query fails; it reports any device smaller than MD_RESERVED_SECTORS * 2
sectors NotPresent (0) without opening it or checking any offset; and
for every larger device it behaves as the claim describes — Error (-1)
when the open fails, otherwise Present (1) together with the first of
the four candidate offsets (the fixed tail-aligned version 0.90.0
offset, then the version-1 offsets for minor versions 0, 1, 2) whose
32-bit word equals the MD magic in native or byte-swapped order, and
NotPresent (0) when no candidate matches. -/
theorem c9_dev_is_md_probe (dev : MDDev) :
    (dev.size? = none → dev_is_md dev = (-1, none)) ∧
    (∀ size : Nat, dev.size? = some size → size < MD_RESERVED_SECTORS * 2 →
      dev_is_md dev = (0, none)) ∧
    (∀ size : Nat, dev.size? = some size → MD_RESERVED_SECTORS * 2 ≤ size →
      dev_is_md dev = dev_is_md_spec dev) := by
  refine ⟨?_, ?_, ?_⟩
  · intro h
    simp [dev_is_md, h]
  · intro size hs hlt
    simp [dev_is_md, hs, hlt]
  · intro size hs hge
    have hnlt : ¬size < MD_RESERVED_SECTORS * 2 := by omega
    cases ho : dev.openOk with
    | false => simp [dev_is_md, dev_is_md_spec, hs, hnlt, ho]
    | true =>
      cases hm0 : devHasMdMagic dev (shl9 (mdNewSizeSectors size)) with
      | true =>
        simp [dev_is_md, dev_is_md_spec, mdCandidates, hs, hnlt, ho, hm0,
          List.find?]
      | false =>
        cases hm1 : devHasMdMagic dev (v1SbOffset size 0) with
        | true =>
          simp [dev_is_md, dev_is_md_spec, mdCandidates, hs, hnlt, ho, hm0,
            hm1, List.find?]
        | false =>
          cases hm2 : devHasMdMagic dev (v1SbOffset size 1) with
          | true =>
            simp [dev_is_md, dev_is_md_spec, mdCandidates, hs, hnlt, ho,
              hm0, hm1, hm2, List.find?]
          | false =>
            cases hm3 : devHasMdMagic dev (v1SbOffset size 2) with
            | true =>
              simp [dev_is_md, dev_is_md_spec, mdCandidates, hs, hnlt, ho,
                hm0, hm1, hm2, hm3, List.find?]
            | false =>
              simp [dev_is_md, dev_is_md_spec, mdCandidates, hs, hnlt, ho,
                hm0, hm1, hm2, hm3, List.find?]

/-- Witness for the amended probe theorem: the small-device clause at
the 200-sector device and the refinement clause at the 512-sector
device with the magic at the v1.2 offset. -/
theorem c9_dev_is_md_probe_witness :
    devSmall.size? = some 200 ∧ 200 < MD_RESERVED_SECTORS * 2 ∧
    dev_is_md devSmall = (0, none) ∧
    devBig.size? = some 512 ∧ MD_RESERVED_SECTORS * 2 ≤ 512 ∧
    dev_is_md devBig = dev_is_md_spec devBig :=
  ⟨rfl, by decide, (c9_dev_is_md_probe devSmall).2.1 200 rfl (by decide),
   rfl, by decide, (c9_dev_is_md_probe devBig).2.2 512 rfl (by decide)⟩

end LvmCfg
